import Mathlib

/-!
# Verification of the glitch-vidmod parameter-permutation pipeline

Shallow embedding of the repository's core pipeline (`permutations.py`)
and of the naming conventions shared by the single-run tool (`mod.py`)
and the side-by-side viewer (`view.py`).

Python `float` arithmetic is modelled by exact rational arithmetic (`ℚ`),
Python `int` by `ℤ`/`ℕ`, Python strings by `String` (a list of
characters).  The external encoder process is modelled as an oracle
`invoke : List String → ℤ × String` returning an exit status and a
captured standard-error text, following the spec's own suggestion to
treat it as a black-box capability.
-/

namespace GlitchVidmod

/-! ## Decimal rendering of integers (Python `str(int)` / f-strings) -/

/-- The character of a single decimal digit `d < 10` (matches Python's
rendering of each digit of an integer). -/
def digitChar (d : ℕ) : Char :=
  match d with
  | 0 => '0' | 1 => '1' | 2 => '2' | 3 => '3' | 4 => '4'
  | 5 => '5' | 6 => '6' | 7 => '7' | 8 => '8' | _ => '9'

/-- Fuel-indexed digit expansion of a natural number, most significant
digit first; with fuel `> n` this is the full decimal rendering.  The
fuel only bounds the recursion depth (`n / 10` strictly decreases). -/
def natCharsGo : ℕ → ℕ → List Char
  | 0, _ => []
  | fuel + 1, n =>
    if n < 10 then [digitChar n]
    else natCharsGo fuel (n / 10) ++ [digitChar (n % 10)]

/-- Python's `str` of a non-negative integer. -/
def natStr (n : ℕ) : String := ⟨natCharsGo (n + 1) n⟩

/-- Python's `str` of an integer: a leading minus sign for negatives. -/
def intStr (i : ℤ) : String :=
  if i < 0 then "-" ++ natStr (-i).toNat else natStr i.toNat

/-- Python's `f"{n:03d}"` for a natural number: left-pad with zeros to
width 3. -/
def pad3 (n : ℕ) : String :=
  ⟨List.replicate (3 - (natStr n).length) '0' ++ (natStr n).data⟩

/-! ## `halton_value` (src/permutations.py, lines 18–27)

The Python loop `while i > 0: f /= base; result += f * (i % base);
i //= base` is embedded with explicit fuel; since `i / base < i`
whenever `i > 0` and `base ≥ 2`, fuel equal to the initial index is
always sufficient, so `halton_value` computes exactly what the source
loop computes for every `base ≥ 2` (for `base ≤ 1` the source loop
diverges or divides by zero; the embedding then just stops). -/

/-- One step per unit of fuel of the `halton_value` while-loop. -/
def haltonGo (base : ℕ) : ℕ → ℕ → ℚ → ℚ → ℚ
  | 0, _, _, result => result
  | fuel + 1, i, f, result =>
    if i = 0 then result
    else haltonGo base fuel (i / base) (f / base)
      (result + (f / base) * ((i % base : ℕ) : ℚ))

/-- `halton_value(index, base)`: Halton sequence value in `[0, 1)`. -/
def halton_value (index : ℕ) (base : ℕ) : ℚ := haltonGo base index index 1 0

/-! ## `scale_int` (src/permutations.py, lines 30–34) -/

/-- Python's `int()` applied to a real value: truncation toward zero. -/
def pyTrunc (q : ℚ) : ℤ := if 0 ≤ q then ⌊q⌋ else ⌈q⌉

/-- `scale_int(value, low, high)`: scale `[0, 1)` to the inclusive
integer range `[low, high]`. -/
def scale_int (value : ℚ) (low high : ℤ) : ℤ :=
  if low = high then low
  else low + pyTrunc (value * (((high : ℚ) - (low : ℚ)) + 1))

/-! ## `build_ffmpeg_command` (src/permutations.py, lines 37–71)

The source's `params: Dict[str, int]` holds exactly the nine keys built
by `main`; following the spec's own design note it is embedded as a
fixed-shape record with one field per dimension. -/

/-- The nine sampled encoder parameters (the Parameter Tuple). -/
structure Params where
  keyint : ℤ
  keyint_min : ℤ
  scenecut : ℤ
  bframes : ℤ
  ref : ℤ
  open_gop : ℤ
  crf : ℤ
  deblock : ℤ
  noise : ℤ
deriving DecidableEq, Repr

/-- `deblock_param = f"deblock={deblock_a}\\:{deblock_b}"` with
`deblock_a = deblock_b = params["deblock"]`. -/
def deblockParam (p : Params) : String :=
  "deblock=" ++ intStr p.deblock ++ "\\:" ++ intStr p.deblock

/-- The part of the `-x264-params` bundle before the deblock
sub-parameter (the first six `key=value:` pieces of the f-string). -/
def bundleHead (p : Params) : String :=
  "keyint=" ++ (intStr p.keyint ++
  (":keyint_min=" ++ (intStr p.keyint_min ++
  (":scenecut=" ++ (intStr p.scenecut ++
  (":bframes=" ++ (intStr p.bframes ++
  (":ref=" ++ (intStr p.ref ++
  (":open-gop=" ++ (intStr p.open_gop ++ ":")))))))))))

/-- The full `-x264-params` bundle argument (`x264_params` in the
source). -/
def x264Params (p : Params) : String := bundleHead p ++ deblockParam p

/-- `noise_filter = f"noise=amount={params['noise']}*not(key)"`. -/
def noiseFilter (p : Params) : String :=
  "noise=amount=" ++ intStr p.noise ++ "*not(key)"

/-- `build_ffmpeg_command(input_path, output_path, params)`. -/
def build_ffmpeg_command (input_path output_path : String) (p : Params) :
    List String :=
  ["ffmpeg", "-y", "-i", input_path, "-c:v", "libx264",
   "-x264-params", x264Params p, "-crf", intStr p.crf,
   "-bsf:v", noiseFilter p, "-pix_fmt", "yuv420p", output_path]

/-! ## The sampler and batch renderer (src/permutations.py, `main`) -/

/-- One Parameter Tuple for sample index `idx`, drawn exactly as in
`main`: bases `primes = [2, 3, 5, 7, 11, 13, 17, 19]` (plus `23` for
noise) and the `ranges` dict, `keyint_min` depending on the sampled
`keyint`. -/
def sampleParams (idx : ℕ) : Params :=
  let keyint := scale_int (halton_value idx 2) 5 80
  let keyint_min := scale_int (halton_value idx 3) 1 keyint
  { keyint := keyint
    keyint_min := keyint_min
    scenecut := scale_int (halton_value idx 5) 0 40
    bframes := scale_int (halton_value idx 7) 0 8
    ref := scale_int (halton_value idx 11) 1 6
    open_gop := scale_int (halton_value idx 13) 0 1
    crf := scale_int (halton_value idx 17) 16 32
    deblock := scale_int (halton_value idx 19) (-4) 4
    noise := scale_int (halton_value idx 23) 1000 8000 }

/-- `os.path.join` for the non-empty relative components the program
uses (POSIX separator). -/
def pathJoin (a b : String) : String := a ++ "/" ++ b

/-- `input_path = os.path.join(script_dir, "vids", "bball.mov")`. -/
def inputPath (scriptDir : String) : String :=
  pathJoin (pathJoin scriptDir "vids") "bball.mov"

/-- `out_dir = os.path.join(script_dir, "permutations")`. -/
def outDir (scriptDir : String) : String := pathJoin scriptDir "permutations"

/-- `output_name = f"bball_perm_{idx:03d}.mp4"`. -/
def outputName (idx : ℕ) : String := "bball_perm_" ++ pad3 idx ++ ".mp4"

/-- The encoder invocation built for sample index `idx`. -/
def cmdFor (scriptDir : String) (idx : ℕ) : List String :=
  build_ffmpeg_command (inputPath scriptDir)
    (pathJoin (outDir scriptDir) (outputName idx)) (sampleParams idx)

/-- One Manifest Record: `{"index": idx, "output": output_name}`
unioned with the Parameter Tuple. -/
structure Record where
  index : ℕ
  output : String
  params : Params
deriving DecidableEq, Repr

/-- The record appended for a successful sample index `idx`. -/
def recordFor (idx : ℕ) : Record := ⟨idx, outputName idx, sampleParams idx⟩

/-- The serialized field list of one manifest record, in the fixed
insertion order of the source dict: `index`, `output`, then the nine
parameter keys in the order of the dict literal in `main`. -/
def recordFields (r : Record) : List (String × String) :=
  [("index", natStr r.index), ("output", r.output),
   ("keyint", intStr r.params.keyint),
   ("keyint_min", intStr r.params.keyint_min),
   ("scenecut", intStr r.params.scenecut),
   ("bframes", intStr r.params.bframes),
   ("ref", intStr r.params.ref),
   ("open_gop", intStr r.params.open_gop),
   ("crf", intStr r.params.crf),
   ("deblock", intStr r.params.deblock),
   ("noise", intStr r.params.noise)]

/-- `f"ffmpeg failed on permutation {idx}:\n{result.stderr}"`. -/
def failMsg (idx : ℕ) (stderr : String) : String :=
  "ffmpeg failed on permutation " ++ natStr idx ++ ":\n" ++ stderr

/-- Modelled from the spec: `argparse` (outside this repository)
rejects a non-integer `count` argument with a usage error on the error
stream and exit code 2; the exact wording of the message is the
library's. -/
def cliUsageError : String :=
  "usage: permutations.py [-h] count (argument count: invalid int value)"

/-- The `for idx in range(1, count + 1)` loop body over a list of
sample indices: invoke the encoder, abort on the first non-zero exit
status, otherwise accumulate one record per index.  Returns the trace
of invocations actually issued together with either the first failure
`(index, stderr)` or the accumulated record list. -/
def runIndices (invoke : List String → ℤ × String)
    (cmdOf : ℕ → List String) (recOf : ℕ → Record) :
    List ℕ → List (List String) × Except (ℕ × String) (List Record)
  | [] => ([], .ok [])
  | i :: rest =>
    let cmd := cmdOf i
    let res := invoke cmd
    if res.1 ≠ 0 then ([cmd], .error (i, res.2))
    else
      let out := runIndices invoke cmdOf recOf rest
      (cmd :: out.1, out.2.map fun recs => recOf i :: recs)

/-- The observable outcome of one run of `main`: whether
`os.makedirs` created the output directory, the trace of encoder
invocations, the manifest written (if any), the messages printed to
the error stream, and the process exit code. -/
structure MainRun where
  createdOutDir : Bool
  invoked : List (List String)
  manifest : Option (List Record)
  errMessages : List String
  exitCode : ℤ
deriving DecidableEq, Repr

/-- The whole of `main` (src/permutations.py, lines 74–142), with the
CLI argument (`none` = `argparse` could not parse an integer), the
prior existence of the output directory and of the input video, and
the external encoder given as explicit inputs.  Mirrors the source's
order: count check, `os.makedirs`, input-existence check, render loop,
manifest write. -/
def mainRun (scriptDir : String) (countArg : Option ℤ)
    (outDirExists inputExists : Bool)
    (invoke : List String → ℤ × String) : MainRun :=
  match countArg with
  | none => ⟨false, [], none, [cliUsageError], 2⟩
  | some count =>
    if count ≤ 0 then
      ⟨false, [], none, ["count must be a positive integer"], 1⟩
    else
      -- os.makedirs(out_dir, exist_ok=True) runs before the input check
      let created := !outDirExists
      if !inputExists then
        ⟨created, [], none,
         ["Input video not found: " ++ inputPath scriptDir], 1⟩
      else
        let out := runIndices invoke (cmdFor scriptDir) recordFor
          (List.range' 1 count.toNat)
        match out.2 with
        | .error e => ⟨created, out.1, none, [failMsg e.1 e.2], 1⟩
        | .ok recs => ⟨created, out.1, some recs, [], 0⟩

/-! ## Naming conventions of mod.py and view.py -/

/-- `output_filename = f"{video.split('.')[0]}_corrupted.mp4"`
(src/mod.py, line 25): Python's `split('.')[0]` is the part of the
name before the first dot. -/
def modOutputName (video : String) : String :=
  ⟨video.data.takeWhile (· ≠ '.')⟩ ++ "_corrupted.mp4"

/-- `os.path.basename`: the part of the path after the last `/`. -/
def basename (s : String) : String :=
  ⟨(s.data.reverse.takeWhile (· ≠ '/')).reverse⟩

/-- The root of `os.path.splitext(s)[0]` for a basename `s`: the part
before the last dot, except that a name whose characters before that
dot are all dots (e.g. `.bashrc`, `..`) is kept whole. -/
def splitextBase (s : String) : String :=
  if (s.data.reverse.takeWhile (· ≠ '.')).length = s.data.length then s
  else if (s.data.take (s.data.length -
      (s.data.reverse.takeWhile (· ≠ '.')).length - 1)).all (· = '.') then s
  else ⟨s.data.take (s.data.length -
      (s.data.reverse.takeWhile (· ≠ '.')).length - 1)⟩

/-- The corrupted-video path the viewer expects for an original at
`origPath` (src/view.py, lines 43–45):
`f'out/{base_name}_corrupted.mp4'`. -/
def viewerCorruptedPath (origPath : String) : String :=
  "out/" ++ splitextBase (basename origPath) ++ "_corrupted.mp4"

/-! ## Range and positivity facts about the sequence generator -/

/-- Loop invariant of the `halton_value` while-loop: starting from a
partial `result` with remaining weight `f > 0`, the loop adds a
non-negative amount strictly below `f`. -/
lemma haltonGo_bounds (base : ℕ) (hb : 2 ≤ base) :
    ∀ (fuel i : ℕ) (f result : ℚ), 0 < f →
      result ≤ haltonGo base fuel i f result ∧
      haltonGo base fuel i f result < result + f := by
  intro fuel
  induction fuel with
  | zero =>
    intro i f result hf
    exact ⟨le_rfl, by simpa [haltonGo] using lt_add_of_pos_right result hf⟩
  | succ fuel ih =>
    intro i f result hf
    rw [haltonGo]
    split
    · exact ⟨le_rfl, lt_add_of_pos_right result hf⟩
    · have hb0 : (0 : ℚ) < (base : ℚ) := by
        have : 0 < base := by omega
        exact_mod_cast this
      have hfb : 0 < f / base := div_pos hf hb0
      set r : ℚ := ((i % base : ℕ) : ℚ) with hr
      have hr0 : 0 ≤ r := by positivity
      have hr1 : r + 1 ≤ (base : ℚ) := by
        have h : i % base + 1 ≤ base := Nat.mod_lt i (by omega)
        rw [hr]
        exact_mod_cast h
      obtain ⟨h1, h2⟩ := ih (i / base) (f / base) (result + f / base * r) hfb
      refine ⟨le_trans ?_ h1, lt_of_lt_of_le h2 ?_⟩
      · have : 0 ≤ f / base * r := mul_nonneg hfb.le hr0
        linarith
      · have hmul : f / base * (r + 1) ≤ f / base * base :=
          mul_le_mul_of_nonneg_left hr1 hfb.le
        have hcancel : f / base * base = f := div_mul_cancel₀ f (ne_of_gt hb0)
        nlinarith

/-- A positive index leaves the loop's starting `result` strictly
behind, provided the fuel covers the index. -/
lemma haltonGo_pos (base : ℕ) (hb : 2 ≤ base) :
    ∀ (fuel i : ℕ), 1 ≤ i → i ≤ fuel → ∀ (f result : ℚ), 0 < f →
      result < haltonGo base fuel i f result := by
  intro fuel
  induction fuel with
  | zero => intro i hi hfuel; omega
  | succ fuel ih =>
    intro i hi hfuel f result hf
    rw [haltonGo]
    split
    · omega
    · have hb0 : (0 : ℚ) < (base : ℚ) := by
        have : 0 < base := by omega
        exact_mod_cast this
      have hfb : 0 < f / base := div_pos hf hb0
      by_cases hr : i % base = 0
      · have hdvd : base ∣ i := Nat.dvd_of_mod_eq_zero hr
        have hquot : 1 ≤ i / base :=
          (Nat.one_le_div_iff (by omega)).mpr (Nat.le_of_dvd (by omega) hdvd)
        have hlt : i / base < i := Nat.div_lt_self (by omega) (by omega)
        have := ih (i / base) hquot (by omega) (f / base)
          (result + f / base * ((i % base : ℕ) : ℚ)) hfb
        simpa [hr] using this
      · have hrpos : (0 : ℚ) < ((i % base : ℕ) : ℚ) := by
          have : 0 < i % base := Nat.pos_of_ne_zero hr
          exact_mod_cast this
        have hstep : result < result + f / base * ((i % base : ℕ) : ℚ) := by
          have : 0 < f / base * ((i % base : ℕ) : ℚ) := mul_pos hfb hrpos
          linarith
        exact lt_of_lt_of_le hstep
          (haltonGo_bounds base hb fuel (i / base) (f / base) _ hfb).1

lemma halton_value_nonneg (i base : ℕ) (hb : 2 ≤ base) :
    0 ≤ halton_value i base :=
  (haltonGo_bounds base hb i i 1 0 one_pos).1

lemma halton_value_lt_one (i base : ℕ) (hb : 2 ≤ base) :
    halton_value i base < 1 := by
  have := (haltonGo_bounds base hb i i 1 0 one_pos).2
  simpa [halton_value] using this

lemma halton_value_pos (i base : ℕ) (hb : 2 ≤ base) (hi : 1 ≤ i) :
    0 < halton_value i base :=
  haltonGo_pos base hb i i hi le_rfl 1 0 one_pos

lemma halton_value_zero (base : ℕ) : halton_value 0 base = 0 := rfl

/-! ## Range facts about the mapper -/

/-- For `low ≤ high` and `v ∈ [0, 1)` the mapped value stays in the
inclusive range. -/
lemma scale_int_mem (v : ℚ) (low high : ℤ) (hlh : low ≤ high)
    (h0 : 0 ≤ v) (h1 : v < 1) :
    low ≤ scale_int v low high ∧ scale_int v low high ≤ high := by
  unfold scale_int
  split
  · omega
  · rename_i hne
    have hlow : low < high := lt_of_le_of_ne hlh hne
    have hn : (0 : ℚ) < (high : ℚ) - low + 1 := by
      have : (low : ℚ) < (high : ℚ) := by exact_mod_cast hlow
      linarith
    have hprod0 : 0 ≤ v * ((high : ℚ) - low + 1) := mul_nonneg h0 hn.le
    rw [pyTrunc, if_pos hprod0]
    have hfl0 : 0 ≤ ⌊v * ((high : ℚ) - low + 1)⌋ := Int.floor_nonneg.mpr hprod0
    have hflhi : ⌊v * ((high : ℚ) - low + 1)⌋ < high - low + 1 := by
      rw [Int.floor_lt]
      have : v * ((high : ℚ) - low + 1) < 1 * ((high : ℚ) - low + 1) :=
        mul_lt_mul_of_pos_right h1 hn
      push_cast
      linarith
    omega

lemma scale_int_same (v : ℚ) (low : ℤ) : scale_int v low low = low := by
  simp [scale_int]

/-- C4: for every base ≥ 2 and every index, `halton_value` terminates
with a value in `[0, 1)` which is `0` exactly when the index is `0`
(strictly positive for every index ≥ 1), and at index `0` it returns
`0` for every base whatsoever, never consulting the base. -/
theorem halton_in_unit_zero_iff (base i : ℕ) (hb : 2 ≤ base) :
    (0 ≤ halton_value i base ∧ halton_value i base < 1) ∧
    (halton_value i base = 0 ↔ i = 0) ∧
    (∀ b : ℕ, halton_value 0 b = 0) := by
  refine ⟨⟨halton_value_nonneg i base hb, halton_value_lt_one i base hb⟩,
    ⟨?_, ?_⟩, fun b => rfl⟩
  · intro h
    by_contra hi
    have hpos := halton_value_pos i base hb (by omega)
    rw [h] at hpos
    exact lt_irrefl 0 hpos
  · intro h
    subst h
    rfl

/-- Witness for C4 at `base = 2`, `index = 1`. -/
theorem halton_in_unit_zero_iff_witness :
    2 ≤ 2 ∧
    ((0 ≤ halton_value 1 2 ∧ halton_value 1 2 < 1) ∧
     (halton_value 1 2 = 0 ↔ 1 = 0) ∧
     (∀ b : ℕ, halton_value 0 b = 0)) :=
  ⟨by norm_num, halton_in_unit_zero_iff 2 1 (by norm_num)⟩

/-- C2: for `low ≤ high` and `v ∈ [0, 1)`, `scale_int v low high` lies
in the closed interval `[low, high]`, and in the degenerate case
`low = high` it returns `low` for every fractional argument without
consulting it. -/
theorem scale_int_in_closed_range (v : ℚ) (low high : ℤ) (hlh : low ≤ high)
    (h0 : 0 ≤ v) (h1 : v < 1) :
    (low ≤ scale_int v low high ∧ scale_int v low high ≤ high) ∧
    (low = high → ∀ w : ℚ, scale_int w low high = low) := by
  refine ⟨scale_int_mem v low high hlh h0 h1, ?_⟩
  rintro rfl w
  exact scale_int_same w low

/-- Witness for C2 at `v = 1/2`, `low = 0`, `high = 10`. -/
theorem scale_int_in_closed_range_witness :
    ((0 : ℤ) ≤ 10 ∧ (0 : ℚ) ≤ 1 / 2 ∧ (1 / 2 : ℚ) < 1) ∧
    (((0 : ℤ) ≤ scale_int (1 / 2) 0 10 ∧ scale_int (1 / 2) 0 10 ≤ 10) ∧
     ((0 : ℤ) = 10 → ∀ w : ℚ, scale_int w 0 10 = 0)) :=
  ⟨⟨by norm_num, by norm_num, by norm_num⟩,
   scale_int_in_closed_range (1 / 2) 0 10 (by norm_num) (by norm_num)
     (by norm_num)⟩

/-- C5: for every sample index ≥ 1, the sampled tuple satisfies
`1 ≤ keyint_min ≤ keyint`. -/
theorem keyint_min_between (i : ℕ) (hi : 1 ≤ i) :
    1 ≤ (sampleParams i).keyint_min ∧
    (sampleParams i).keyint_min ≤ (sampleParams i).keyint := by
  have hkey := scale_int_mem (halton_value i 2) 5 80 (by norm_num)
    (halton_value_nonneg i 2 (by norm_num))
    (halton_value_lt_one i 2 (by norm_num))
  have hmin := scale_int_mem (halton_value i 3) 1
    (scale_int (halton_value i 2) 5 80) (by linarith [hkey.1])
    (halton_value_nonneg i 3 (by norm_num))
    (halton_value_lt_one i 3 (by norm_num))
  simpa [sampleParams] using hmin

/-- Witness for C5 at sample index `1`. -/
theorem keyint_min_between_witness :
    1 ≤ 1 ∧
    (1 ≤ (sampleParams 1).keyint_min ∧
     (sampleParams 1).keyint_min ≤ (sampleParams 1).keyint) :=
  ⟨le_rfl, keyint_min_between 1 le_rfl⟩

/-! ## Character-level facts about the rendered command strings -/

/-- The unescaped deblock sub-parameter the spec forbids. -/
def unescapedPat : List Char := ("deblock=-3:-3").data

/-- The escaped deblock sub-parameter the source builds for
`deblock = -3`. -/
def escapedPat : List Char := ("deblock=-3\\:-3").data

lemma digitChar_mem_digits (d : ℕ) :
    digitChar d ∈ ['0', '1', '2', '3', '4', '5', '6', '7', '8', '9'] := by
  unfold digitChar
  split <;> decide

lemma mem_natCharsGo_digits :
    ∀ (fuel n : ℕ), ∀ c ∈ natCharsGo fuel n,
      c ∈ ['0', '1', '2', '3', '4', '5', '6', '7', '8', '9'] := by
  intro fuel
  induction fuel with
  | zero => intro n c hc; simp [natCharsGo] at hc
  | succ fuel ih =>
    intro n c hc
    rw [natCharsGo] at hc
    split at hc
    · rw [List.mem_singleton] at hc
      exact hc ▸ digitChar_mem_digits n
    · rcases List.mem_append.mp hc with h | h
      · exact ih (n / 10) c h
      · rw [List.mem_singleton] at h
        exact h ▸ digitChar_mem_digits (n % 10)

/-- Every character of Python's `str` of an integer is a decimal digit
or the minus sign. -/
lemma mem_intStr (i : ℤ) (c : Char) (hc : c ∈ (intStr i).data) :
    c = '-' ∨ c ∈ ['0', '1', '2', '3', '4', '5', '6', '7', '8', '9'] := by
  rw [intStr] at hc
  split at hc
  · rw [String.data_append] at hc
    rcases List.mem_append.mp hc with h | h
    · left
      simpa using h
    · right
      exact mem_natCharsGo_digits _ _ c h
  · right
    exact mem_natCharsGo_digits _ _ c hc

lemma d_not_mem_intStr (i : ℤ) : 'd' ∉ (intStr i).data := by
  intro h
  rcases mem_intStr i 'd' h with h | h <;> simp at h

/-- The bundle text before the deblock sub-parameter never contains the
letter `d`: its fixed key names avoid it and the rendered integer
values consist of digits and minus signs only. -/
lemma d_not_mem_bundleHead (p : Params) : 'd' ∉ (bundleHead p).data := by
  intro h
  rw [bundleHead] at h
  simp only [String.data_append, List.mem_append] at h
  rcases h with h | h | h | h | h | h | h | h | h | h | h | h | h <;>
    first
      | exact absurd h (by decide)
      | exact d_not_mem_intStr _ h

/-- The unescaped `deblock=-3:-3` occurs nowhere in a string of the
form `P ++ "deblock=-3\:-3"` when `P` contains no letter `d`: any
occurrence would have to start at the unique `deblock` key, where the
escaped form stands instead. -/
lemma unescaped_never_occurs (P : List Char) (hd : 'd' ∉ P) :
    ¬ unescapedPat <:+: (P ++ escapedPat) := by
  intro hinf
  obtain ⟨s, t, heq⟩ := hinf
  have hlen : s.length + 13 + t.length = P.length + 14 := by
    have h := congrArg List.length heq
    simp only [List.length_append] at h
    have hp : unescapedPat.length = 13 := by decide
    have hs : escapedPat.length = 14 := by decide
    omega
  by_cases hge : 14 ≤ t.length
  · -- the pattern would sit entirely inside P
    have hsp : (s ++ unescapedPat) <+: P := by
      refine List.prefix_of_prefix_length_le ⟨t, heq⟩
        (List.prefix_append P escapedPat) ?_
      simp only [List.length_append]
      have hp : unescapedPat.length = 13 := by decide
      omega
    obtain ⟨u, hu⟩ := hsp
    apply hd
    rw [← hu]
    have : 'd' ∈ unescapedPat := by decide
    simp [List.mem_append, this]
  · push_neg at hge
    have hts : t <:+ escapedPat := by
      refine List.suffix_of_suffix_length_le ⟨s ++ unescapedPat, heq⟩
        (List.suffix_append P escapedPat) ?_
      have hs : escapedPat.length = 14 := by decide
      omega
    obtain ⟨u, hu⟩ := hts
    have hstep : (s ++ unescapedPat) ++ t = (P ++ u) ++ t := by
      rw [heq, ← hu, List.append_assoc]
    have h2 : s ++ unescapedPat = P ++ u := List.append_cancel_right hstep
    by_cases hsP : s.length ≤ P.length
    · have hpre : s <+: P :=
        List.prefix_of_prefix_length_le ⟨unescapedPat, h2⟩
          (List.prefix_append P u) hsP
      obtain ⟨Q, hQ⟩ := hpre
      have hstep2 : s ++ unescapedPat = s ++ (Q ++ u) := by
        rw [h2, ← hQ, List.append_assoc]
      have hpatQ : unescapedPat = Q ++ u := List.append_cancel_left hstep2
      have hdQ : 'd' ∉ Q := by
        intro hm
        exact hd (hQ ▸ List.mem_append.mpr (Or.inr hm))
      cases Q with
      | nil =>
        rw [List.nil_append] at hpatQ
        have htk : escapedPat.take 13 = unescapedPat := by
          rw [← hu, ← hpatQ]
          exact List.take_left' (by decide)
        exact absurd htk (by decide)
      | cons c Q2 =>
        have hc : c = 'd' := by
          have h3 := congrArg List.head? hpatQ
          rw [show unescapedPat.head? = some 'd' from rfl] at h3
          simp at h3
          exact h3.symm
        exact hdQ (hc ▸ List.mem_cons_self c Q2)
    · push_neg at hsP
      have ht0 : t.length = 0 := by omega
      have ht : t = [] := List.length_eq_zero.mp ht0
      rw [ht, List.append_nil] at hu
      have hPs : P <+: s :=
        List.prefix_of_prefix_length_le ⟨u, rfl⟩
          (⟨unescapedPat, h2⟩ : s <+: P ++ u) (by omega)
      obtain ⟨R, hR⟩ := hPs
      have hstep3 : P ++ (R ++ unescapedPat) = P ++ u := by
        rw [← List.append_assoc, hR, h2]
      have hRpat : R ++ unescapedPat = u := List.append_cancel_left hstep3
      have hR1 : R.length = 1 := by
        have h4 := congrArg List.length hR
        simp only [List.length_append] at h4
        omega
      have hdrop : unescapedPat = escapedPat.drop 1 := by
        rw [← hu, ← hRpat]
        exact (List.drop_left' hR1).symm
      exact absurd hdrop (by decide)

/-- C1: for every parameter tuple with `deblock = -3`, the built
argument list contains the `-x264-params` bundle as one argument, that
bundle contains the literal substring `deblock=-3\:-3` with the
internal colon escaped by a backslash, and the unescaped
`deblock=-3:-3` occurs nowhere in the bundle. -/
theorem deblock_colon_escaped (inp outp : String) (p : Params)
    (h : p.deblock = -3) :
    x264Params p ∈ build_ffmpeg_command inp outp p ∧
    ("deblock=-3\\:-3").data <:+: (x264Params p).data ∧
    ¬ ("deblock=-3:-3").data <:+: (x264Params p).data := by
  have hdeb : (deblockParam p).data = escapedPat := by
    rw [deblockParam, h]
    decide
  have hdata : (x264Params p).data = (bundleHead p).data ++ escapedPat := by
    rw [x264Params, String.data_append, hdeb]
  refine ⟨by simp [build_ffmpeg_command], ?_, ?_⟩
  · rw [hdata]
    exact ⟨(bundleHead p).data, [], by simp [escapedPat]⟩
  · rw [hdata]
    intro hinf
    exact unescaped_never_occurs (bundleHead p).data (d_not_mem_bundleHead p)
      (by simpa [unescapedPat] using hinf)

/-- Witness for C1 at a concrete tuple (the one sampled at index 1,
with `deblock` set to `-3`) and concrete paths. -/
theorem deblock_colon_escaped_witness :
    (Params.mk 43 15 8 1 1 0 17 (-3) 1304).deblock = -3 ∧
    (x264Params (Params.mk 43 15 8 1 1 0 17 (-3) 1304) ∈
       build_ffmpeg_command "in.mov" "out.mp4"
         (Params.mk 43 15 8 1 1 0 17 (-3) 1304) ∧
     ("deblock=-3\\:-3").data <:+:
       (x264Params (Params.mk 43 15 8 1 1 0 17 (-3) 1304)).data ∧
     ¬ ("deblock=-3:-3").data <:+:
       (x264Params (Params.mk 43 15 8 1 1 0 17 (-3) 1304)).data) :=
  ⟨rfl, deblock_colon_escaped "in.mov" "out.mp4" _ rfl⟩

/-! ## Behaviour of the batch loop -/

/-- When the encoder succeeds on every listed index, the loop invokes
exactly the commands of those indices in order and accumulates one
record per index. -/
lemma runIndices_all_ok (invoke : List String → ℤ × String)
    (cmdOf : ℕ → List String) (recOf : ℕ → Record) :
    ∀ (l : List ℕ), (∀ j ∈ l, (invoke (cmdOf j)).1 = 0) →
      runIndices invoke cmdOf recOf l = (l.map cmdOf, .ok (l.map recOf)) := by
  intro l
  induction l with
  | nil => intro _; rfl
  | cons i rest ih =>
    intro h
    have hi : (invoke (cmdOf i)).1 = 0 := h i (List.mem_cons_self i rest)
    have hrest := ih fun j hj => h j (List.mem_cons_of_mem i hj)
    simp [runIndices, hi, hrest, Except.map]

/-- When the encoder succeeds on every index of `l1` and fails on `i`,
the loop stops right after invoking `i`'s command: the invocation trace
is `l1`'s commands followed by `i`'s, the outcome the captured failure,
and nothing after `i` is ever invoked. -/
lemma runIndices_first_fail (invoke : List String → ℤ × String)
    (cmdOf : ℕ → List String) (recOf : ℕ → Record) :
    ∀ (l1 : List ℕ) (i : ℕ) (l2 : List ℕ),
      (∀ j ∈ l1, (invoke (cmdOf j)).1 = 0) → (invoke (cmdOf i)).1 ≠ 0 →
      runIndices invoke cmdOf recOf (l1 ++ i :: l2) =
        (l1.map cmdOf ++ [cmdOf i], .error (i, (invoke (cmdOf i)).2)) := by
  intro l1
  induction l1 with
  | nil =>
    intro i l2 _ hf
    simp [runIndices, hf]
  | cons j rest ih =>
    intro i l2 hok hf
    have hj : (invoke (cmdOf j)).1 = 0 := hok j (List.mem_cons_self j rest)
    have hrest := ih i l2 (fun k hk => hok k (List.mem_cons_of_mem j hk)) hf
    simp [runIndices, hj, hrest, Except.map]

/-- A fully successful run of `main`: directory ensured, every index
1..count invoked in order, the manifest written with one record per
index, nothing on the error stream, exit code 0. -/
lemma mainRun_success (sd : String) (oe : Bool)
    (invoke : List String → ℤ × String) (count : ℤ) (hc : 0 < count)
    (hok : ∀ c, (invoke c).1 = 0) :
    mainRun sd (some count) oe true invoke =
      ⟨!oe, (List.range' 1 count.toNat).map (cmdFor sd),
       some ((List.range' 1 count.toNat).map recordFor), [], 0⟩ := by
  rw [mainRun, if_neg (not_le.mpr hc)]
  have hall := runIndices_all_ok invoke (cmdFor sd) recordFor
    (List.range' 1 count.toNat) (fun j _ => hok (cmdFor sd j))
  simp [hall]

/-- C3: if the encoder succeeds on every sample index below `i` and
returns a non-zero exit status at `i ≤ n`, the batch run invokes
exactly the commands of indices 1..i (none greater), prints the one
failure message naming index `i` together with the captured stderr,
writes no manifest, and exits 1. -/
theorem batch_aborts_on_failure (sd : String) (oe : Bool)
    (invoke : List String → ℤ × String) (n i : ℕ)
    (h1 : 1 ≤ i) (h2 : i ≤ n)
    (hprev : ∀ j, 1 ≤ j → j < i → (invoke (cmdFor sd j)).1 = 0)
    (hfail : (invoke (cmdFor sd i)).1 ≠ 0) :
    mainRun sd (some (n : ℤ)) oe true invoke =
      ⟨!oe, (List.range' 1 i).map (cmdFor sd), none,
       [failMsg i ((invoke (cmdFor sd i)).2)], 1⟩ := by
  rw [mainRun, if_neg (by omega : ¬ ((n : ℤ) ≤ 0))]
  rw [show ((n : ℤ)).toNat = n from Int.toNat_ofNat n]
  have hsplit : List.range' 1 n =
      List.range' 1 (i - 1) ++ i :: List.range' (i + 1) (n - i) := by
    have happ := List.range'_append 1 (i - 1) (n - (i - 1)) 1
    have hs : 1 + 1 * (i - 1) = i := by omega
    have hn' : n - (i - 1) + (i - 1) = n := by omega
    rw [hs, hn'] at happ
    rw [← happ]
    congr 1
    rw [show n - (i - 1) = (n - i) + 1 from by omega, List.range'_succ]
  have hok1 : ∀ j ∈ List.range' 1 (i - 1), (invoke (cmdFor sd j)).1 = 0 := by
    intro j hj
    have := List.mem_range'_1.mp hj
    exact hprev j this.1 (by omega)
  have hrun := runIndices_first_fail invoke (cmdFor sd) recordFor
    (List.range' 1 (i - 1)) i (List.range' (i + 1) (n - i)) hok1 hfail
  have hmaps : (List.range' 1 (i - 1)).map (cmdFor sd) ++ [cmdFor sd i] =
      (List.range' 1 i).map (cmdFor sd) := by
    have happ := List.range'_append 1 (i - 1) 1 1
    rw [show 1 + 1 * (i - 1) = i from by omega, List.range'_one,
      show 1 + (i - 1) = i from by omega] at happ
    rw [← happ, List.map_append]
    rfl
  simp [hsplit, hrun, hmaps]

/-- Witness for C3 with `n = 2` and an encoder failing already at
index 1. -/
theorem batch_aborts_on_failure_witness :
    (1 ≤ 1 ∧ 1 ≤ 2 ∧
     ((fun _ => ((1 : ℤ), "boom")) (cmdFor "" 1)).1 ≠ 0) ∧
    mainRun "" (some ((2 : ℕ) : ℤ)) false true (fun _ => ((1 : ℤ), "boom")) =
      ⟨!false, (List.range' 1 1).map (cmdFor ""), none,
       [failMsg 1 (((fun _ => ((1 : ℤ), "boom")) (cmdFor "" 1)).2)], 1⟩ :=
  ⟨⟨le_rfl, by omega, by decide⟩,
   batch_aborts_on_failure "" false (fun _ => ((1 : ℤ), "boom")) 2 1 le_rfl
     (by omega)
     (fun j hj1 hj2 => absurd (Nat.lt_of_le_of_lt hj1 hj2) (Nat.lt_irrefl 1))
     (by decide)⟩

/-- Counterexample to C6 as stated: with a positive count, a missing
input video and a not-yet-existing output directory, the process does
report the error, exits 1, invokes no encoder and writes no manifest —
but it has already created the output directory (`os.makedirs` runs
before the input-existence check), so the filesystem is NOT left
unchanged. -/
theorem missing_input_creates_outdir_cex :
    (mainRun "" (some 5) false false fun _ => ((0 : ℤ), "")).createdOutDir
        = true ∧
    (mainRun "" (some 5) false false fun _ => ((0 : ℤ), "")).exitCode = 1 ∧
    (mainRun "" (some 5) false false fun _ => ((0 : ℤ), "")).invoked = [] ∧
    (mainRun "" (some 5) false false fun _ => ((0 : ℤ), "")).manifest
        = none :=
  ⟨rfl, rfl, rfl, rfl⟩

/-- C6 (amended): if the configured input video is absent (and the
count is positive), the process prints the missing-input message to the
error stream and exits 1, invoking no encoder and writing no manifest;
the only filesystem effect is that the output directory has been
created if it did not already exist. -/
theorem missing_input_no_render (sd : String) (count : ℤ) (oe : Bool)
    (invoke : List String → ℤ × String) (hc : 0 < count) :
    mainRun sd (some count) oe false invoke =
      ⟨!oe, [], none, ["Input video not found: " ++ inputPath sd], 1⟩ := by
  rw [mainRun, if_neg (not_le.mpr hc)]
  simp

/-- Witness for C6 (amended) at `count = 1`. -/
theorem missing_input_no_render_witness :
    (0 : ℤ) < 1 ∧
    mainRun "sd" (some 1) true false (fun _ => ((0 : ℤ), "")) =
      ⟨!true, [], none, ["Input video not found: " ++ inputPath "sd"], 1⟩ :=
  ⟨by norm_num, missing_input_no_render "sd" 1 true (fun _ => ((0 : ℤ), ""))
    (by norm_num)⟩

/-- C9: a non-positive integer count is rejected with the usage message
on the error stream and exit code 1, and a non-integer count (modelled
as the absent parse result) is rejected by the argument parser with a
usage error and exit code 2; in both cases nothing is invoked, no
manifest is written and the output directory is not created. -/
theorem bad_count_usage_error (sd : String) (oe ie : Bool)
    (invoke : List String → ℤ × String) (n : ℤ) (hn : n ≤ 0) :
    (mainRun sd (some n) oe ie invoke =
       ⟨false, [], none, ["count must be a positive integer"], 1⟩ ∧
     (mainRun sd (some n) oe ie invoke).exitCode ≠ 0) ∧
    (mainRun sd none oe ie invoke = ⟨false, [], none, [cliUsageError], 2⟩ ∧
     (mainRun sd none oe ie invoke).exitCode ≠ 0) := by
  have h1 : mainRun sd (some n) oe ie invoke =
      ⟨false, [], none, ["count must be a positive integer"], 1⟩ := by
    rw [mainRun, if_pos hn]
  have h2 : mainRun sd none oe ie invoke =
      ⟨false, [], none, [cliUsageError], 2⟩ := rfl
  exact ⟨⟨h1, by rw [h1]; decide⟩, ⟨h2, by rw [h2]; decide⟩⟩

/-- Witness for C9 at `n = 0`. -/
theorem bad_count_usage_error_witness :
    (0 : ℤ) ≤ 0 ∧
    ((mainRun "sd" (some 0) true true (fun _ => ((0 : ℤ), "")) =
        ⟨false, [], none, ["count must be a positive integer"], 1⟩ ∧
      (mainRun "sd" (some 0) true true
        (fun _ => ((0 : ℤ), ""))).exitCode ≠ 0) ∧
     (mainRun "sd" none true true (fun _ => ((0 : ℤ), "")) =
        ⟨false, [], none, [cliUsageError], 2⟩ ∧
      (mainRun "sd" none true true
        (fun _ => ((0 : ℤ), ""))).exitCode ≠ 0)) :=
  ⟨le_rfl, bad_count_usage_error "sd" true true (fun _ => ((0 : ℤ), "")) 0
    le_rfl⟩

/-- C7: sampling is deterministic — the sampler is a pure function of
the index, and two runs of the pipeline with the same positive count
against encoders that succeed on every invocation produce identical
manifests: the very record list (same indices, same parameter values)
and therefore identical serialized field lists (same fixed field
order), independent of either encoder's outputs or of the prior state
of the output directory. -/
theorem manifest_deterministic (sd : String) (oe1 oe2 : Bool) (n : ℤ)
    (inv1 inv2 : List String → ℤ × String) (hn : 0 < n)
    (h1 : ∀ c, (inv1 c).1 = 0) (h2 : ∀ c, (inv2 c).1 = 0) :
    (∀ i : ℕ, sampleParams i = sampleParams i) ∧
    (mainRun sd (some n) oe1 true inv1).manifest =
      (mainRun sd (some n) oe2 true inv2).manifest ∧
    (mainRun sd (some n) oe1 true inv1).manifest =
      some ((List.range' 1 n.toNat).map recordFor) ∧
    ((mainRun sd (some n) oe1 true inv1).manifest.map
        fun recs => recs.map recordFields) =
      ((mainRun sd (some n) oe2 true inv2).manifest.map
        fun recs => recs.map recordFields) := by
  rw [mainRun_success sd oe1 inv1 n hn h1, mainRun_success sd oe2 inv2 n hn h2]
  exact ⟨fun i => rfl, rfl, rfl, rfl⟩

/-- Witness for C7 at `count = 1` with two (equal) always-succeeding
encoders. -/
theorem manifest_deterministic_witness :
    ((0 : ℤ) < 1 ∧ (∀ c : List String, ((fun _ => ((0 : ℤ), "a")) c).1 = 0) ∧
     (∀ c : List String, ((fun _ => ((0 : ℤ), "b")) c).1 = 0)) ∧
    ((∀ i : ℕ, sampleParams i = sampleParams i) ∧
     (mainRun "sd" (some 1) false true fun _ => ((0 : ℤ), "a")).manifest =
       (mainRun "sd" (some 1) true true fun _ => ((0 : ℤ), "b")).manifest ∧
     (mainRun "sd" (some 1) false true fun _ => ((0 : ℤ), "a")).manifest =
       some ((List.range' 1 (1 : ℤ).toNat).map recordFor) ∧
     ((mainRun "sd" (some 1) false true
         fun _ => ((0 : ℤ), "a")).manifest.map
        fun recs => recs.map recordFields) =
       ((mainRun "sd" (some 1) true true
         fun _ => ((0 : ℤ), "b")).manifest.map
        fun recs => recs.map recordFields)) :=
  ⟨⟨by norm_num, fun c => rfl, fun c => rfl⟩,
   manifest_deterministic "sd" false true 1 (fun _ => ((0 : ℤ), "a"))
     (fun _ => ((0 : ℤ), "b")) (by norm_num) (fun c => rfl) (fun c => rfl)⟩

/-- C8: after a successful batch, every record of the written manifest
reconstructs, byte for byte, the encoder argument list that was
actually invoked for it: applying the Command Builder to the record's
parameter fields and its stored output filename (joined to the fixed
output directory, with the fixed input path) yields exactly the entry
of the invocation trace at that record's index. -/
theorem manifest_reconstructs_command (sd : String) (n : ℤ) (oe : Bool)
    (invoke : List String → ℤ × String) (hn : 0 < n)
    (hok : ∀ c, (invoke c).1 = 0) :
    ∀ recs, (mainRun sd (some n) oe true invoke).manifest = some recs →
      ∀ r ∈ recs,
        ((mainRun sd (some n) oe true invoke).invoked)[r.index - 1]? =
          some (build_ffmpeg_command (inputPath sd)
            (pathJoin (outDir sd) r.output) r.params) := by
  rw [mainRun_success sd oe invoke n hn hok]
  intro recs hrecs r hr
  obtain rfl : ((List.range' 1 n.toNat).map recordFor) = recs :=
    Option.some.inj hrecs
  obtain ⟨idx, hidx, rfl⟩ := List.mem_map.mp hr
  have hmem := List.mem_range'_1.mp hidx
  have hlt : (recordFor idx).index - 1 < n.toNat := by
    simp only [recordFor]
    omega
  rw [List.getElem?_map, List.getElem?_range' 1 1 hlt]
  have hidx1 : 1 + 1 * ((recordFor idx).index - 1) = idx := by
    simp only [recordFor]
    omega
  rw [hidx1]
  rfl

/-- Witness for C8 at `count = 1` with an always-succeeding encoder. -/
theorem manifest_reconstructs_command_witness :
    ((0 : ℤ) < 1 ∧
     (∀ c : List String, ((fun _ => ((0 : ℤ), "")) c).1 = 0)) ∧
    (∀ recs,
      (mainRun "sd" (some 1) false true
        fun _ => ((0 : ℤ), "")).manifest = some recs →
      ∀ r ∈ recs,
        ((mainRun "sd" (some 1) false true
            fun _ => ((0 : ℤ), "")).invoked)[r.index - 1]? =
          some (build_ffmpeg_command (inputPath "sd")
            (pathJoin (outDir "sd") r.output) r.params)) :=
  ⟨⟨by norm_num, fun c => rfl⟩,
   manifest_reconstructs_command "sd" 1 false (fun _ => ((0 : ℤ), ""))
     (by norm_num) (fun c => rfl)⟩

/-! ## The mod.py / view.py filename convention -/

lemma takeWhile_append_stop {p : Char → Bool} (l : List Char) (y : Char)
    (r : List Char) (hl : ∀ x ∈ l, p x = true) (hy : p y = false) :
    (l ++ y :: r).takeWhile p = l := by
  induction l with
  | nil => simp [List.takeWhile_cons, hy]
  | cons a l ih =>
    have ha := hl a (List.mem_cons_self a l)
    have hrest := ih fun x hx => hl x (List.mem_cons_of_mem a hx)
    simp [List.takeWhile_cons, ha, hrest]

/-- Counterexample to C10 as stated: `my.video.mp4` is a video file
(it ends with `.mp4`), yet the single-run tool names its output after
the part before the FIRST dot (`my_corrupted.mp4`) while the viewer
expects the extension-stripped base (`my.video_corrupted.mp4`), so the
produced name and the expected name differ. -/
theorem mod_view_naming_cex :
    "my.video.mp4" = "my.video" ++ ".mp4" ∧
    modOutputName "my.video.mp4" = "my_corrupted.mp4" ∧
    viewerCorruptedPath ("vids/" ++ "my.video.mp4") =
      "out/my.video_corrupted.mp4" ∧
    "out/" ++ modOutputName "my.video.mp4" ≠
      viewerCorruptedPath ("vids/" ++ "my.video.mp4") := by
  refine ⟨rfl, rfl, rfl, ?_⟩
  decide

/-- C10 (amended): for every input video filename without a path
separator, with exactly one dot, and not starting with a dot — every
conventional `<base>.<ext>` name, such as the repository's
`bball.mov` — the single-run tool's output name `<base>_corrupted.mp4`
(written under `out/`) is exactly the corrupted filename the viewer
computes for the original under `vids/`; names with more than one dot
break the correspondence as the counterexample shows. -/
theorem mod_view_naming_single_dot (v : String)
    (hslash : '/' ∉ v.data)
    (hdot : v.data.count '.' = 1)
    (hhead : v.data.head? ≠ some '.') :
    "out/" ++ modOutputName v = viewerCorruptedPath ("vids/" ++ v) := by
  -- decompose the name at its unique dot
  have hmem : '.' ∈ v.data := by
    by_contra hno
    rw [List.count_eq_zero_of_not_mem hno] at hdot
    omega
  obtain ⟨a, b, hv⟩ := List.append_of_mem hmem
  have hcnt : a.count '.' = 0 ∧ b.count '.' = 0 := by
    rw [hv] at hdot
    simp only [List.count_append, List.count_cons_self] at hdot
    omega
  have hna : '.' ∉ a := List.count_eq_zero.mp hcnt.1
  have hnb : '.' ∉ b := List.count_eq_zero.mp hcnt.2
  -- the part before the dot is non-empty and starts with a non-dot
  rcases a with _ | ⟨c, a2⟩
  · exact absurd (by rw [hv]; rfl : v.data.head? = some '.') hhead
  · have hc : c ≠ '.' := fun heq => hhead (by rw [hv, heq]; rfl)
    -- mod.py takes the prefix before the first dot
    have htake : List.takeWhile (fun x => decide (x ≠ '.')) v.data =
        c :: a2 := by
      rw [hv]
      exact takeWhile_append_stop _ _ _
        (fun x hx => decide_eq_true fun heq => hna (heq ▸ hx))
        (by decide)
    -- the viewer strips the last extension of the basename
    have hbase : basename ("vids/" ++ v) = v := by
      have hrev2 : (("vids/").data ++ v.data).reverse =
          v.data.reverse ++ '/' :: ("sdiv").data := by
        rw [List.reverse_append]
        rfl
      have hb2 : List.takeWhile (fun x => decide (x ≠ '/'))
          (v.data.reverse ++ '/' :: ("sdiv").data) = v.data.reverse :=
        takeWhile_append_stop _ _ _
          (fun x hx => decide_eq_true
            fun heq => hslash (heq ▸ List.mem_reverse.mp hx))
          (by decide)
      rw [basename, String.data_append, hrev2, hb2, List.reverse_reverse]
    have hrev : v.data.reverse = b.reverse ++ '.' :: (c :: a2).reverse := by
      rw [hv, List.reverse_append, List.reverse_cons, List.append_assoc]
      rfl
    have htw : List.takeWhile (fun x => decide (x ≠ '.')) v.data.reverse =
        b.reverse := by
      rw [hrev]
      exact takeWhile_append_stop _ _ _
        (fun x hx => decide_eq_true
          fun heq => hnb (heq ▸ List.mem_reverse.mp hx))
        (by decide)
    have hlen : v.data.length = (c :: a2).length + 1 + b.length := by
      rw [hv]
      simp [List.length_append, List.length_cons]
      omega
    have hsplit : splitextBase v = ⟨c :: a2⟩ := by
      rw [splitextBase, htw]
      rw [if_neg (by rw [List.length_reverse]; omega)]
      have hk : v.data.length - b.reverse.length - 1 = (c :: a2).length := by
        rw [List.length_reverse]
        omega
      rw [hk]
      have htakek : v.data.take (c :: a2).length = c :: a2 := by
        rw [hv]
        exact List.take_left (c :: a2) ('.' :: b)
      rw [htakek]
      rw [if_neg (by simp [List.all_cons, decide_eq_false hc])]
    rw [viewerCorruptedPath, hbase, hsplit, modOutputName, htake]
    rw [String.append_assoc]

/-- Witness for C10 (amended) at the repository's own input name
`bball.mov`. -/
theorem mod_view_naming_single_dot_witness :
    ('/' ∉ ("bball.mov").data ∧ ("bball.mov").data.count '.' = 1 ∧
     ("bball.mov").data.head? ≠ some '.') ∧
    "out/" ++ modOutputName "bball.mov" =
      viewerCorruptedPath ("vids/" ++ "bball.mov") :=
  ⟨⟨by decide, by decide, by decide⟩,
   mod_view_naming_single_dot "bball.mov" (by decide) (by decide) (by decide)⟩

end GlitchVidmod
